import Mathlib

/-!
Shallow embedding of the pronunciation-scoring core of the
english-pronunciation-bolt repository, together with proofs settling the
frozen claims about its specification.

Strings are modelled as `List Char`; JavaScript numbers as `ℚ` (all the
arithmetic the scorer performs is exact decimal arithmetic, so `ℚ` is a
faithful model); `Math.round` is Mathlib's `round` (round half towards
positive infinity, as in JavaScript for the values occurring here);
integer results carry type `ℤ`.

Sources embedded:
- src/services/speechRecognition.ts (calculateAccuracy and helpers)
- src/components/PronunciationCard.tsx (enhanceAccuracyScore)
- src/app/api/pronunciation+api.ts (calculateAdvancedAccuracy,
  calculateSimpleAccuracy, fallback mock variations, generateMockAnalysis)
-/

namespace Pron

/-! ### Character and string helpers (JS built-ins used by the source) -/

/-- JS `\s` whitespace class restricted to the ASCII range. -/
def isSpaceChar (c : Char) : Bool :=
  c == ' ' || c == '\t' || c == '\n' || c == '\r' || c == '\x0b' || c == '\x0c'

/-- JS `\w` word-character class: `[A-Za-z0-9_]`. -/
def isWordChar (c : Char) : Bool :=
  (decide ('a' ≤ c) && decide (c ≤ 'z')) ||
  (decide ('A' ≤ c) && decide (c ≤ 'Z')) ||
  (decide ('0' ≤ c) && decide (c ≤ '9')) || c == '_'

/-- JS `String.prototype.toLowerCase` on the ASCII range. -/
def toLowerStr (l : List Char) : List Char := l.map Char.toLower

/-- JS `String.prototype.trim`. -/
def trimStr (l : List Char) : List Char :=
  ((l.dropWhile isSpaceChar).reverse.dropWhile isSpaceChar).reverse

/-- JS `String.prototype.startsWith` (needle, haystack). -/
def startsWithStr : List Char → List Char → Bool
  | [], _ => true
  | _ :: _, [] => false
  | a :: as, b :: bs => a == b && startsWithStr as bs

/-- JS `String.prototype.includes` (haystack searched for needle). -/
def containsStr (needle : List Char) : List Char → Bool
  | [] => startsWithStr needle []
  | c :: t => startsWithStr needle (c :: t) || containsStr needle t

/-- JS `str.replace(/c/, r)` for a single character `c` (first occurrence only,
no `g` flag). -/
def replaceFirstChar (c r : Char) : List Char → List Char
  | [] => []
  | x :: t => if x = c then r :: t else x :: replaceFirstChar c r t

/-- JS `str.replace(/th/, r)` style single-character replacement of the first
occurrence of the two-character pattern `a` `b` (no `g` flag). -/
def replaceFirstPair (a b r : Char) : List Char → List Char
  | [] => []
  | [c] => [c]
  | x :: y :: t =>
    if x = a ∧ y = b then r :: t
    else x :: replaceFirstPair a b r (y :: t)

/-- JS `str.replace(/pat$/, repl)`: anchored suffix replacement. -/
def replaceSuffixStr (pat repl l : List Char) : List Char :=
  if startsWithStr pat.reverse l.reverse then l.take (l.length - pat.length) ++ repl
  else l

/-- JS `str.replace(/ab/g, repl)`: global replacement of a two-character
digraph, scanning left to right without overlap. -/
def subDigraph (a b : Char) (repl : List Char) : List Char → List Char
  | [] => []
  | [c] => [c]
  | x :: y :: rest =>
    if x = a ∧ y = b then repl ++ subDigraph a b repl rest
    else x :: subDigraph a b repl (y :: rest)

/-- JS `str.replace(/c/g, r)` for single characters. -/
def mapChar (c r : Char) (l : List Char) : List Char :=
  l.map fun x => if x = c then r else x

/-- Count of positions at which two equal-length words hold different
characters (used to state the one-character-difference hypothesis). -/
def diffCount : List Char → List Char → ℕ
  | a :: as, b :: bs => (if a = b then 0 else 1) + diffCount as bs
  | _, _ => 0

end Pron

namespace Speech

open Pron

/-! ### src/services/speechRecognition.ts -/

/-- `cleanWord`: lowercase, trim, strip punctuation (`[^\w\s]`), strip all
whitespace. -/
def cleanWord (word : List Char) : List Char :=
  let lowered := toLowerStr word
  let trimmed := trimStr lowered
  let noPunct := trimmed.filter fun c => isWordChar c || isSpaceChar c
  noPunct.filter fun c => !(isSpaceChar c)

/-- `normalizeForAccents` step 1: `.replace(/ph/g, 'f')`. -/
def subPh (l : List Char) : List Char := subDigraph 'p' 'h' ['f'] l

/-- `normalizeForAccents` step 2: `.replace(/ck/g, 'k')`. -/
def subCk (l : List Char) : List Char := subDigraph 'c' 'k' ['k'] l

/-- `normalizeForAccents` step 3: `.replace(/qu/g, 'kw')`. -/
def subQu (l : List Char) : List Char := subDigraph 'q' 'u' ['k', 'w'] l

/-- `normalizeForAccents` step 4: `.replace(/x/g, 'ks')`. -/
def subX : List Char → List Char
  | [] => []
  | c :: t => if c = 'x' then 'k' :: 's' :: subX t else c :: subX t

/-- `normalizeForAccents` step 5: `.replace(/c/g, 'k')`. -/
def subC (l : List Char) : List Char := mapChar 'c' 'k' l

/-- `normalizeForAccents` step 6: `.replace(/y/g, 'i')`. -/
def subY (l : List Char) : List Char := mapChar 'y' 'i' l

/-- `normalizeForAccents` step 7: `.replace(/(.)\1+/g, '$1')` collapses runs
of a repeated character into one copy (the characters of a run are all equal,
so keeping the last of a run, as this structural recursion does, produces the
same string as keeping the first).  The JS `.` does not match a newline, so
runs of newlines are kept. -/
def collapseRuns : List Char → List Char
  | [] => []
  | [c] => [c]
  | a :: b :: rest =>
    if a = b ∧ a ≠ '\n' then collapseRuns (b :: rest)
    else a :: collapseRuns (b :: rest)

/-- `normalizeForAccents` step 8: `.replace(/e$/, '')` removes one trailing
`'e'`. -/
def dropE : List Char → List Char
  | [] => []
  | [c] => if c = 'e' then [] else [c]
  | c :: rest => c :: dropE rest

/-- `normalizeForAccents`: the fixed-order substitution pipeline. -/
def normalizeForAccents (word : List Char) : List Char :=
  dropE (collapseRuns (subY (subC (subX (subQu (subCk (subPh word)))))))

/-- `extractVowelPattern`: `word.match(/[aeiou]/g) || []`. -/
def extractVowelPattern (word : List Char) : List Char :=
  word.filter fun c => c == 'a' || c == 'e' || c == 'i' || c == 'o' || c == 'u'

/-- Vowel-letter class `[aeiouy]` used by the syllable estimators. -/
def isVowelY (c : Char) : Bool :=
  c == 'a' || c == 'e' || c == 'i' || c == 'o' || c == 'u' || c == 'y'

/-- Number of maximal `[aeiouy]+` groups (`word.match(/[aeiouy]+/g)` length).
The boolean argument records whether the previous character was a vowel. -/
def countVowelGroups : List Char → Bool → ℕ
  | [], _ => 0
  | c :: rest, inRun =>
    if isVowelY c then (if inRun then 0 else 1) + countVowelGroups rest true
    else countVowelGroups rest false

/-- `estimateSyllableCount` of the speech-recognition service. -/
def estimateSyllableCount (word : List Char) : ℕ :=
  if word.length = 0 then 0
  else
    let syllables := countVowelGroups (toLowerStr word) false
    let adjusted :=
      if (toLowerStr word).getLast? = some 'e' ∧ 1 < syllables then syllables - 1
      else syllables
    max 1 adjusted

/-- `longestCommonSubsequence`, row of the DP table: given row `i-1` compute
row `i` for character `a` of the first sequence.  `left` is the entry just
computed in the current row. -/
def lcsRowAux (a : Char) : List Char → List ℕ → ℕ → List ℕ
  | b :: bs, diag :: rest, left =>
    let up := rest.headD 0
    let cur := if a = b then diag + 1 else max up left
    cur :: lcsRowAux a bs rest cur
  | _, _, _ => []

/-- `longestCommonSubsequence` over the vowel sequences: full O(n·m) DP. -/
def longestCommonSubsequence (seq1 seq2 : List Char) : ℕ :=
  (seq1.foldl (fun prev a => 0 :: lcsRowAux a seq2 prev 0)
    (List.replicate (seq2.length + 1) 0)).getLastD 0

/-- `calculateSequenceSimilarity` over vowel sequences. -/
def calculateSequenceSimilarity (seq1 seq2 : List Char) : ℚ :=
  let maxLength : ℕ := max seq1.length seq2.length
  if maxLength = 0 then 100
  else
    let lcs := longestCommonSubsequence seq1 seq2
    let similarity := ((lcs : ℚ) / (maxLength : ℚ)) * 100
    let lengthSimilarity : ℚ :=
      1 - |(seq1.length : ℚ) - (seq2.length : ℚ)| / (maxLength : ℚ)
    similarity * 0.8 + lengthSimilarity * 20

/-- `calculateStressPatternAccuracy`. -/
def calculateStressPatternAccuracy (target spoken : List Char) : ℚ :=
  let targetVowels := extractVowelPattern target
  let spokenVowels := extractVowelPattern spoken
  if targetVowels.length = 0 ∧ spokenVowels.length = 0 then 100
  else if targetVowels.length = 0 ∨ spokenVowels.length = 0 then 50
  else max 60 (calculateSequenceSimilarity targetVowels spokenVowels)

/-- `calculateSyllableAccuracy`. -/
def calculateSyllableAccuracy (target spoken : List Char) : ℚ :=
  let targetSyllables := estimateSyllableCount target
  let spokenSyllables := estimateSyllableCount spoken
  if targetSyllables = spokenSyllables then 100
  else
    let difference : ℕ := max targetSyllables spokenSyllables -
      min targetSyllables spokenSyllables
    let maxSyllables : ℕ := max targetSyllables spokenSyllables
    if maxSyllables = 0 then 100
    else if difference ≤ 1 then 85
    else max 50 (100 - ((difference : ℚ) / (maxSyllables : ℚ)) * 50)

/-- The Jaro matching phase: walks `i` over `s1`, marking the first unmatched
`j` inside the window with `s2[j] = s1[i]`.  Returns the two flag arrays and
the match count, exactly as the source's loops do. -/
def jaroMatchFold (s1 s2 : List Char) (w : ℤ) : List Bool × List Bool × ℕ :=
  (List.range s1.length).foldl
    (fun st (i : ℕ) =>
      let lo : ℤ := max 0 ((i : ℤ) - w)
      let hi : ℤ := min ((i : ℤ) + w + 1) (s2.length : ℤ)
      let found := ((List.range s2.length).filter fun (j : ℕ) =>
          decide (lo ≤ (j : ℤ)) && decide ((j : ℤ) < hi)).find? fun (j : ℕ) =>
            !(st.2.1.getD j false) && (s2.getD j ' ' == s1.getD i ' ')
      match found with
      | some j => (st.1.set i true, st.2.1.set j true, st.2.2 + 1)
      | none => st)
    (List.replicate s1.length false, List.replicate s2.length false, 0)

/-- First index `k' ≥ k` with `m[k'] = true` (the source's
`while (!str2Matches[k]) k++` pointer advance). -/
def firstTrueFrom (m : List Bool) (k : ℕ) : ℕ :=
  match (List.range m.length).find? (fun j => decide (k ≤ j) && m.getD j false) with
  | some j => j
  | none => m.length

/-- The Jaro transposition phase. -/
def jaroTranspositions (s1 s2 : List Char) (m1 m2 : List Bool) : ℕ :=
  ((List.range s1.length).foldl
    (fun st i =>
      if m1.getD i false then
        let k2 := firstTrueFrom m2 st.1
        (k2 + 1, if s1.getD i ' ' = s2.getD k2 ' ' then st.2 else st.2 + 1)
      else st)
    ((0 : ℕ), (0 : ℕ))).2

/-- `calculateJaroSimilarity`: the plain Jaro similarity as implemented (note:
despite the surrounding comments in the source, no Winkler prefix bonus is
applied).  The identical algorithm appears in both speechRecognition.ts and
pronunciation+api.ts. -/
def calculateJaroSimilarity (s1 s2 : List Char) : ℚ :=
  if s1 = s2 then 1
  else
    let len1 := s1.length
    let len2 := s2.length
    if len1 = 0 ∨ len2 = 0 then 0
    else
      let matchWindow : ℤ := ((max len1 len2) / 2 : ℕ) - 1
      let st := jaroMatchFold s1 s2 matchWindow
      let matchCount := st.2.2
      if matchCount = 0 then 0
      else
        let t := jaroTranspositions s1 s2 st.1 st.2.1
        ((matchCount : ℚ) / (len1 : ℚ) + (matchCount : ℚ) / (len2 : ℚ) +
          ((matchCount : ℚ) - (t : ℚ) / 2) / (matchCount : ℚ)) / 3

/-- The `substringMatch` term of `calculateLenientSimilarity`: if the longer
string contains the shorter, their length quotient scaled to 100, else 0. -/
def substringScore (str1 str2 : List Char) : ℚ :=
  let longer := if str2.length < str1.length then str1 else str2
  let shorter := if str2.length < str1.length then str2 else str1
  if containsStr shorter longer then ((shorter.length : ℚ) / (longer.length : ℚ)) * 100
  else 0

/-- `calculateLenientSimilarity`. -/
def calculateLenientSimilarity (str1 str2 : List Char) : ℚ :=
  let longer := if str2.length < str1.length then str1 else str2
  if longer.length = 0 then 100
  else max (calculateJaroSimilarity str1 str2 * 100) (substringScore str1 str2)

/-- `calculateCoreWordAccuracy`. -/
def calculateCoreWordAccuracy (target spoken : List Char) : ℚ :=
  let normalizedTarget := normalizeForAccents target
  let normalizedSpoken := normalizeForAccents spoken
  if normalizedTarget = normalizedSpoken then 95
  else calculateLenientSimilarity normalizedTarget normalizedSpoken * 0.9

/-- The eleven accent-variation rewrites of `calculateAccentToleranceBonus`,
in source order; each is a first-occurrence (non-global) JS `replace`. -/
def accentVariations : List (List Char → List Char) :=
  [ replaceSuffixStr ['r'] [],
    replaceSuffixStr ['e', 'r'] ['a'],
    replaceFirstChar 'a' 'e',
    replaceFirstChar 'i' 'e',
    replaceFirstChar 'o' 'u',
    replaceFirstPair 't' 'h' 'd',
    replaceFirstPair 't' 'h' 'f',
    replaceFirstChar 'v' 'w',
    replaceFirstChar 'w' 'v',
    replaceFirstChar 'z' 's',
    replaceFirstChar 'j' 'y' ]

/-- Greedy multiset character matching of `calculateContainmentRatio` (source
name kept in the comment; the ratio of target characters found in the spoken
word, each spoken character consumed at most once). -/
def containmentMatched : List Char → List Char → ℕ
  | [], _ => 0
  | c :: rest, spoken =>
    if c ∈ spoken then 1 + containmentMatched rest (spoken.erase c)
    else containmentMatched rest spoken

/-- The source's `calculateContainmentRatio`. -/
def calculateContainment (target spoken : List Char) : ℚ :=
  if target.length = 0 then 0
  else (containmentMatched target spoken : ℚ) / (target.length : ℚ)

/-- `calculateAccentToleranceBonus`: up to 15 for an accent-variation match,
10 for length similarity above 0.7, 5 for containment above 0.6, capped
at 25. -/
def calculateAccentToleranceBonus (target spoken : List Char) : ℚ :=
  let variationBonus : ℚ :=
    if accentVariations.any (fun v =>
        v target == spoken || target == v spoken || v target == v spoken)
    then 15 else 0
  let lengthSimilarity : ℚ :=
    1 - |(target.length : ℚ) - (spoken.length : ℚ)| /
      (max target.length spoken.length : ℚ)
  let lengthBonus : ℚ := if 0.7 < lengthSimilarity then 10 else 0
  let containBonus : ℚ := if 0.6 < calculateContainment target spoken then 5 else 0
  min 25 (variationBonus + lengthBonus + containBonus)

/-- `calculateAccuracy`: the raw lenient accuracy of the speech-recognition
service, an integer clamped to [0, 100]. -/
def calculateAccuracy (targetWord spokenWord : List Char) : ℤ :=
  let target := cleanWord targetWord
  let spoken := cleanWord spokenWord
  if target = spoken then 100
  else if target.length = 0 ∨ spoken.length = 0 then 0
  else
    let core := calculateCoreWordAccuracy target spoken
    let stress := calculateStressPatternAccuracy target spoken
    let syllable := calculateSyllableAccuracy target spoken
    let bonus := calculateAccentToleranceBonus target spoken
    let baseAccuracy := core * 0.50 + stress * 0.25 + syllable * 0.25
    let finalAccuracy := min 100 (baseAccuracy + bonus)
    round (max 0 finalAccuracy)

end Speech

namespace Card

/-! ### src/components/PronunciationCard.tsx -/

/-- `enhanceAccuracyScore`: the deliberate encouragement remap applied to a
raw accuracy before display.  All call sites pass the integer accuracy
returned by a scorer, but the JS function accepts any number, so the domain
is `ℚ`. -/
def enhanceAccuracyScore (rawAccuracy : ℚ) : ℤ :=
  let enhanced1 : ℚ :=
    if 40 ≤ rawAccuracy ∧ rawAccuracy < 70 then min 85 (rawAccuracy + 15)
    else if 70 ≤ rawAccuracy ∧ rawAccuracy < 85 then min 92 (rawAccuracy + 7)
    else if 30 ≤ rawAccuracy ∧ rawAccuracy < 40 then min 65 (rawAccuracy + 25)
    else rawAccuracy
  let enhanced2 : ℚ := if 20 ≤ rawAccuracy ∧ enhanced1 < 45 then 45 else enhanced1
  round enhanced2

end Card

namespace Api

open Pron Speech

/-! ### src/app/api/pronunciation+api.ts -/

/-- A word with per-word confidence inside a provider alternative. -/
structure WordInfo where
  word : List Char
  confidence : Option ℚ

/-- One alternative of a Google Speech-to-Text result. -/
structure SpeechAlternative where
  transcript : List Char
  confidence : Option ℚ
  words : Option (List WordInfo)

/-- One entry of `speechResult.results`. -/
structure RecognitionResult where
  alternatives : List SpeechAlternative

/-- The provider result shape consumed by `calculateAdvancedAccuracy`; absent
`results` is modelled by the empty list. -/
structure SpeechResult where
  results : List RecognitionResult

/-- The optional chain `speechResult.results?.[0]?.alternatives?.[0]`. -/
def firstAlternative (res : SpeechResult) : Option SpeechAlternative :=
  match res.results with
  | r :: _ => r.alternatives.head?
  | [] => none

/-- `levenshteinDistance`: the classic unit-cost edit-distance recurrence of
the source's DP matrix. -/
def levenshteinDistance : List Char → List Char → ℕ
  | [], s2 => s2.length
  | s1, [] => s1.length
  | a :: as, b :: bs =>
    min (levenshteinDistance as (b :: bs) + 1)
      (min (levenshteinDistance (a :: as) bs + 1)
        (levenshteinDistance as bs + if a = b then 0 else 1))
termination_by s1 s2 => s1.length + s2.length

/-- `calculateStringsimilarity` (source spelling): 0.7 Jaro plus 0.3
Levenshtein similarity, scaled to 100 and rounded, 100 on exact match, 0 when
either string is empty. -/
def calculateStringsimilarity (target spoken : List Char) : ℤ :=
  if target = spoken then 100
  else if target.length = 0 ∨ spoken.length = 0 then 0
  else
    let jaroSim := calculateJaroSimilarity target spoken
    let maxLength : ℕ := max target.length spoken.length
    let distance := levenshteinDistance target spoken
    let levenshteinSimilarity : ℚ := ((maxLength : ℚ) - (distance : ℚ)) / (maxLength : ℚ)
    let combinedSimilarity := (jaroSim * 0.7 + levenshteinSimilarity * 0.3) * 100
    max 0 (round combinedSimilarity)

/-- `calculateSimpleAccuracy` is `calculateStringsimilarity`. -/
def calculateSimpleAccuracy (target spoken : List Char) : ℤ :=
  calculateStringsimilarity target spoken

/-- The ten global rewrites of `calculatePronunciationBonus`, in source
order. -/
def pronunciationVariations : List (List Char → List Char) :=
  [ subDigraph 't' 'h' ['d'],
    subDigraph 't' 'h' ['f'],
    mapChar 'v' 'w',
    mapChar 'w' 'v',
    replaceSuffixStr ['r'] [],
    replaceSuffixStr ['e', 'r'] ['a'],
    mapChar 'z' 's',
    mapChar 'j' 'y',
    mapChar 'ʃ' 's',
    subDigraph 't' 'ʃ' ['t', 's'] ]

/-- `calculatePronunciationBonus`: 8 for an accent-variation match plus a
small length-similarity bonus, capped at 12. -/
def calculatePronunciationBonus (target spoken : List Char) : ℚ :=
  let variationBonus : ℚ :=
    if pronunciationVariations.any (fun v => v target == spoken || target == v spoken)
    then 8 else 0
  let lengthDiff : ℕ := max target.length spoken.length - min target.length spoken.length
  let lengthBonus : ℚ := if lengthDiff ≤ 1 then 3 else if lengthDiff ≤ 2 then 1 else 0
  min 12 (variationBonus + lengthBonus)

/-- `estimateSyllables` (API variant, with the extra `-le` adjustment). -/
def estimateSyllables (word : List Char) : ℕ :=
  let lw := toLowerStr word
  let syllables := countVowelGroups lw false
  let afterSilentE := if lw.getLast? = some 'e' ∧ 1 < syllables then syllables - 1
    else syllables
  let afterLe := if startsWithStr ['e', 'l'] lw.reverse ∧ 1 < afterSilentE then
    afterSilentE + 1 else afterSilentE
  max 1 afterLe

/-- `calculateStressPatternBonus`. -/
def calculateStressPatternBonus (target spoken : List Char) : ℚ :=
  let t := estimateSyllables target
  let s := estimateSyllables spoken
  if t = s then 5
  else if max t s - min t s = 1 then 2
  else 0

/-- The scan of `calculateWordLevelAccuracy` over the provider's word list:
an exact (lowercased) match returns its confidence scaled to 100 immediately;
containment matches accumulate `confidence * 80` as the best partial match. -/
def wordLevelLoop (targetLower : List Char) (bestMatch : ℚ) : List WordInfo → ℚ
  | [] => bestMatch
  | w :: rest =>
    let wordText := toLowerStr w.word
    let conf := w.confidence.getD 0
    if wordText = targetLower then conf * 100
    else if containsStr targetLower wordText || containsStr wordText targetLower then
      wordLevelLoop targetLower (max bestMatch (conf * 80)) rest
    else wordLevelLoop targetLower bestMatch rest

/-- `calculateWordLevelAccuracy`. -/
def calculateWordLevelAccuracy (targetWord : List Char) (res : SpeechResult) : ℚ :=
  match (firstAlternative res).bind (fun a => a.words) with
  | none => 0
  | some [] => 0
  | some (w :: ws) => wordLevelLoop (toLowerStr targetWord) 0 (w :: ws)

/-- `calculateAdvancedAccuracy`: provider-confidence-based accuracy with
string-similarity fallback, pronunciation and stress bonuses, clamped to
[0, 100].  A present but zero confidence is falsy in JS and is treated like
an absent one. -/
def calculateAdvancedAccuracy (targetWord transcript : List Char)
    (res : SpeechResult) : ℤ :=
  let target := trimStr (toLowerStr targetWord)
  let spoken := trimStr (toLowerStr transcript)
  if target = spoken then 100
  else
    let conf := (firstAlternative res).bind (fun a => a.confidence)
    let baseFromConf : ℤ := match conf with
      | some c => if c ≠ 0 then round (c * 100) else 0
      | none => 0
    let baseAccuracy : ℚ :=
      if baseFromConf = 0 then ((calculateStringsimilarity target spoken : ℤ) : ℚ)
      else (baseFromConf : ℚ)
    let pronunciationBonus := calculatePronunciationBonus target spoken
    let wordLevelAccuracy := calculateWordLevelAccuracy target res
    let stressPatternBonus := calculateStressPatternBonus target spoken
    let finalAccuracy := min 100
      (baseAccuracy * 0.6 + wordLevelAccuracy * 0.25 +
        pronunciationBonus + stressPatternBonus)
    max 0 (round finalAccuracy)

/-- `targetWord.charAt(0).toUpperCase() + targetWord.slice(1).toLowerCase()`
from the fallback variation list. -/
def capitalizeFirst : List Char → List Char
  | [] => []
  | c :: rest => Char.toUpper c :: toLowerStr rest

/-- The eight synthetic transcripts `fallbackTranscription` can draw from
(the random index only selects among these). -/
def mockVariations (targetWord : List Char) : List (List Char) :=
  [ targetWord,
    toLowerStr targetWord,
    capitalizeFirst targetWord,
    targetWord.map fun c =>
      if c == 'a' || c == 'e' || c == 'i' || c == 'o' || c == 'u' then 'e' else c,
    targetWord.dropLast,
    targetWord ++ ['s'],
    subDigraph 't' 'h' ['d'] targetWord,
    replaceSuffixStr ['r'] [] targetWord ]

/-- The analysis record produced for the caller. -/
structure PronunciationAnalysis where
  overallQuality : String
  specificIssues : List String
  strengths : List String
  suggestions : List String

/-- `generateMockAnalysis`: the fallback analysis, driven purely by
`calculateSimpleAccuracy`. -/
def generateMockAnalysis (targetWord transcript : List Char) : PronunciationAnalysis :=
  let accuracy := calculateSimpleAccuracy targetWord transcript
  { overallQuality :=
      if 80 ≤ accuracy then "good"
      else if 60 ≤ accuracy then "fair"
      else "needs improvement"
    specificIssues := if accuracy < 80 then ["Practice needed for clearer pronunciation"] else []
    strengths := if 80 ≤ accuracy then ["Good attempt at the word"] else []
    suggestions := ["Listen to the example and practice slowly"] }

end Api

namespace SpecModel

open Pron Speech

/-- Length of the common prefix of two words. -/
def commonPrefixLen : List Char → List Char → ℕ
  | a :: as, b :: bs => if a = b then 1 + commonPrefixLen as bs else 0
  | _, _ => 0

/-- Following the spec's words (§4.1), for comparison with the
implementation: the Jaro-Winkler similarity is the Jaro similarity plus the
prefix bonus `0.1 * commonPrefixLen(≤4) * (1 - jaro)`.  The implementation's
`calculateLenientSimilarity` never applies this bonus. -/
def jaroWinklerSpec (a b : List Char) : ℚ :=
  let jaro := calculateJaroSimilarity a b
  jaro + 0.1 * ((min (commonPrefixLen a b) 4 : ℕ) : ℚ) * (1 - jaro)

end SpecModel

/-! ## Helper lemmas about `round` (JS `Math.round` on the values at hand) -/

theorem roundMono {x y : ℚ} (h : x ≤ y) : round x ≤ round y := by
  rw [round_eq, round_eq]
  exact Int.floor_le_floor (by linarith)

theorem roundLB (x : ℚ) : x - 1 / 2 ≤ (round x : ℚ) := by
  have h := abs_sub_round x
  rw [abs_le] at h
  linarith [h.1]

theorem roundUB (x : ℚ) : (round x : ℚ) ≤ x + 1 / 2 := by
  have h := abs_sub_round x
  rw [abs_le] at h
  linarith [h.2]

theorem roundNum (n : ℤ) : round ((n : ℚ)) = n := round_intCast n

/-! ## Region equations for the encouragement transform -/

theorem enhance_lt20 {r : ℚ} (h : r < 20) : Card.enhanceAccuracyScore r = round r := by
  simp only [Card.enhanceAccuracyScore]
  rw [if_neg (show ¬(40 ≤ r ∧ r < 70) by rintro ⟨ha, -⟩; linarith),
    if_neg (show ¬(70 ≤ r ∧ r < 85) by rintro ⟨ha, -⟩; linarith),
    if_neg (show ¬(30 ≤ r ∧ r < 40) by rintro ⟨ha, -⟩; linarith),
    if_neg (show ¬(20 ≤ r ∧ r < 45) by rintro ⟨ha, -⟩; linarith)]

theorem enhance_20_30 {r : ℚ} (h1 : 20 ≤ r) (h2 : r < 30) :
    Card.enhanceAccuracyScore r = 45 := by
  simp only [Card.enhanceAccuracyScore]
  rw [if_neg (show ¬(40 ≤ r ∧ r < 70) by rintro ⟨ha, -⟩; linarith),
    if_neg (show ¬(70 ≤ r ∧ r < 85) by rintro ⟨ha, -⟩; linarith),
    if_neg (show ¬(30 ≤ r ∧ r < 40) by rintro ⟨ha, -⟩; linarith),
    if_pos (show 20 ≤ r ∧ r < 45 from ⟨h1, by linarith⟩)]
  have := roundNum 45
  exact_mod_cast this

theorem enhance_30_40 {r : ℚ} (h1 : 30 ≤ r) (h2 : r < 40) :
    Card.enhanceAccuracyScore r = round (r + 25) := by
  simp only [Card.enhanceAccuracyScore]
  rw [if_neg (show ¬(40 ≤ r ∧ r < 70) by rintro ⟨ha, -⟩; linarith),
    if_neg (show ¬(70 ≤ r ∧ r < 85) by rintro ⟨ha, -⟩; linarith),
    if_pos (show 30 ≤ r ∧ r < 40 from ⟨h1, h2⟩),
    min_eq_right (show r + 25 ≤ 65 by linarith),
    if_neg (show ¬(20 ≤ r ∧ r + 25 < 45) by rintro ⟨-, hb⟩; linarith)]

theorem enhance_40_70 {r : ℚ} (h1 : 40 ≤ r) (h2 : r < 70) :
    Card.enhanceAccuracyScore r = round (r + 15) := by
  simp only [Card.enhanceAccuracyScore]
  rw [if_pos (show 40 ≤ r ∧ r < 70 from ⟨h1, h2⟩),
    min_eq_right (show r + 15 ≤ 85 by linarith),
    if_neg (show ¬(20 ≤ r ∧ r + 15 < 45) by rintro ⟨-, hb⟩; linarith)]

theorem enhance_70_85 {r : ℚ} (h1 : 70 ≤ r) (h2 : r < 85) :
    Card.enhanceAccuracyScore r = round (r + 7) := by
  simp only [Card.enhanceAccuracyScore]
  rw [if_neg (show ¬(40 ≤ r ∧ r < 70) by rintro ⟨-, hb⟩; linarith),
    if_pos (show 70 ≤ r ∧ r < 85 from ⟨h1, h2⟩),
    min_eq_right (show r + 7 ≤ 92 by linarith),
    if_neg (show ¬(20 ≤ r ∧ r + 7 < 45) by rintro ⟨-, hb⟩; linarith)]

theorem enhance_ge85 {r : ℚ} (h : 85 ≤ r) : Card.enhanceAccuracyScore r = round r := by
  simp only [Card.enhanceAccuracyScore]
  rw [if_neg (show ¬(40 ≤ r ∧ r < 70) by rintro ⟨-, hb⟩; linarith),
    if_neg (show ¬(70 ≤ r ∧ r < 85) by rintro ⟨-, hb⟩; linarith),
    if_neg (show ¬(30 ≤ r ∧ r < 40) by rintro ⟨-, hb⟩; linarith),
    if_neg (show ¬(20 ≤ r ∧ r < 45) by rintro ⟨-, hb⟩; linarith)]

theorem enhance_le_100 {r : ℚ} (h : r ≤ 100) : Card.enhanceAccuracyScore r ≤ 100 := by
  rcases lt_or_le r 20 with hr | hr
  · rw [enhance_lt20 hr]
    calc round r ≤ round (100 : ℚ) := roundMono (by linarith)
    _ = 100 := by exact_mod_cast roundNum 100
  rcases lt_or_le r 30 with hr2 | hr2
  · rw [enhance_20_30 hr hr2]; norm_num
  rcases lt_or_le r 40 with hr3 | hr3
  · rw [enhance_30_40 hr2 hr3]
    have h1 := roundUB (r + 25)
    have h2 : (round (r + 25) : ℚ) ≤ 100 := by linarith
    exact_mod_cast h2
  rcases lt_or_le r 70 with hr4 | hr4
  · rw [enhance_40_70 hr3 hr4]
    have h1 := roundUB (r + 15)
    have h2 : (round (r + 15) : ℚ) ≤ 100 := by linarith
    exact_mod_cast h2
  rcases lt_or_le r 85 with hr5 | hr5
  · rw [enhance_70_85 hr4 hr5]
    have h1 := roundUB (r + 7)
    have h2 : (round (r + 7) : ℚ) ≤ 100 := by linarith
    exact_mod_cast h2
  · rw [enhance_ge85 hr5]
    calc round r ≤ round (100 : ℚ) := roundMono h
    _ = 100 := by exact_mod_cast roundNum 100

theorem enhance_nonneg {r : ℚ} (h : 0 ≤ r) : 0 ≤ Card.enhanceAccuracyScore r := by
  rcases lt_or_le r 20 with hr | hr
  · rw [enhance_lt20 hr]
    calc (0 : ℤ) = round (0 : ℚ) := by rw [round_zero]
    _ ≤ round r := roundMono h
  rcases lt_or_le r 30 with hr2 | hr2
  · rw [enhance_20_30 hr hr2]; norm_num
  rcases lt_or_le r 40 with hr3 | hr3
  · rw [enhance_30_40 hr2 hr3]
    have h1 := roundLB (r + 25)
    have h2 : (0 : ℚ) ≤ (round (r + 25) : ℚ) := by linarith
    exact_mod_cast h2
  rcases lt_or_le r 70 with hr4 | hr4
  · rw [enhance_40_70 hr3 hr4]
    have h1 := roundLB (r + 15)
    have h2 : (0 : ℚ) ≤ (round (r + 15) : ℚ) := by linarith
    exact_mod_cast h2
  rcases lt_or_le r 85 with hr5 | hr5
  · rw [enhance_70_85 hr4 hr5]
    have h1 := roundLB (r + 7)
    have h2 : (0 : ℚ) ≤ (round (r + 7) : ℚ) := by linarith
    exact_mod_cast h2
  · rw [enhance_ge85 hr5]
    have h1 := roundLB r
    have h2 : (0 : ℚ) ≤ (round r : ℚ) := by linarith
    exact_mod_cast h2

/-! ## Bounds of the two raw scorers -/

theorem calculateAccuracy_bounds (t s : List Char) :
    0 ≤ Speech.calculateAccuracy t s ∧ Speech.calculateAccuracy t s ≤ 100 := by
  simp only [Speech.calculateAccuracy]
  split_ifs with h1 h2
  · exact ⟨by norm_num, le_refl _⟩
  · exact ⟨le_refl _, by norm_num⟩
  · constructor
    · calc (0 : ℤ) = round (0 : ℚ) := by rw [round_zero]
      _ ≤ _ := roundMono (le_max_left 0 _)
    · calc round (max 0 (min 100 _)) ≤ round (100 : ℚ) :=
        roundMono (max_le (by norm_num) (min_le_left _ _))
      _ = 100 := by exact_mod_cast roundNum 100

theorem calculateAdvancedAccuracy_bounds (t tr : List Char) (res : Api.SpeechResult) :
    0 ≤ Api.calculateAdvancedAccuracy t tr res ∧
      Api.calculateAdvancedAccuracy t tr res ≤ 100 := by
  simp only [Api.calculateAdvancedAccuracy]
  by_cases h1 : Pron.trimStr (Pron.toLowerStr t) = Pron.trimStr (Pron.toLowerStr tr)
  · rw [if_pos h1]
    exact ⟨by norm_num, le_refl _⟩
  · rw [if_neg h1]
    refine ⟨le_max_left 0 _, max_le (by norm_num) ?_⟩
    calc round (min 100 _) ≤ round (100 : ℚ) := roundMono (min_le_left _ _)
    _ = 100 := by exact_mod_cast roundNum 100

/-! ## Claim theorems -/

/-- Claim C1: scoring any non-empty word against itself yields accuracy
exactly 100, for the raw score of `calculateAccuracy`, for
`calculateAdvancedAccuracy` under any provider result (the exact-match
short-circuit fires before any confidence is consulted), and for the boosted
score `enhanceAccuracyScore 100`. -/
theorem claim1_exact_match_100 (w : List Char) (_hw : w ≠ []) (res : Api.SpeechResult) :
    Speech.calculateAccuracy w w = 100 ∧
      Api.calculateAdvancedAccuracy w w res = 100 ∧
      Card.enhanceAccuracyScore 100 = 100 := by
  refine ⟨?_, ?_, ?_⟩
  · simp [Speech.calculateAccuracy]
  · simp [Api.calculateAdvancedAccuracy]
  · rw [enhance_ge85 (by norm_num)]
    have := roundNum 100
    exact_mod_cast this

/-- Witness for C1 at the concrete word "cat" and an empty provider result. -/
theorem claim1_witness :
    "cat".data ≠ [] ∧
      (Speech.calculateAccuracy "cat".data "cat".data = 100 ∧
        Api.calculateAdvancedAccuracy "cat".data "cat".data ⟨[]⟩ = 100 ∧
        Card.enhanceAccuracyScore 100 = 100) :=
  ⟨by decide, claim1_exact_match_100 "cat".data (by decide) ⟨[]⟩⟩

/-- Claim C2: both raw scorers return an integer (the result type is `ℤ`) in
[0, 100] on all inputs, and the booster maps [0, 100] into [0, 100]. -/
theorem claim2_score_bounds :
    (∀ t s : List Char, 0 ≤ Speech.calculateAccuracy t s ∧
        Speech.calculateAccuracy t s ≤ 100) ∧
      (∀ (t tr : List Char) (res : Api.SpeechResult),
        0 ≤ Api.calculateAdvancedAccuracy t tr res ∧
          Api.calculateAdvancedAccuracy t tr res ≤ 100) ∧
      (∀ r : ℚ, 0 ≤ r → r ≤ 100 →
        0 ≤ Card.enhanceAccuracyScore r ∧ Card.enhanceAccuracyScore r ≤ 100) :=
  ⟨calculateAccuracy_bounds, calculateAdvancedAccuracy_bounds,
    fun _ h1 h2 => ⟨enhance_nonneg h1, enhance_le_100 h2⟩⟩

/-- Witness for C2 at concrete inputs, discharging the hypotheses of its
third conjunct at the raw score 50. -/
theorem claim2_witness :
    (0 ≤ Speech.calculateAccuracy "cat".data "dog".data ∧
        Speech.calculateAccuracy "cat".data "dog".data ≤ 100) ∧
      (0 ≤ Api.calculateAdvancedAccuracy "cat".data "dog".data ⟨[]⟩ ∧
        Api.calculateAdvancedAccuracy "cat".data "dog".data ⟨[]⟩ ≤ 100) ∧
      (0 ≤ Card.enhanceAccuracyScore 50 ∧ Card.enhanceAccuracyScore 50 ≤ 100) :=
  ⟨claim2_score_bounds.1 "cat".data "dog".data,
    claim2_score_bounds.2.1 "cat".data "dog".data ⟨[]⟩,
    claim2_score_bounds.2.2 50 (by norm_num) (by norm_num)⟩

/-- Claim C3: for raw scores in [20, 85) the boosted score is at least the
raw score; on [0, 100] the boosted score never exceeds 100; and any raw score
at least 20 is boosted to at least 45. -/
theorem claim3_boost_properties (r : ℚ) :
    (20 ≤ r → r < 85 → r ≤ (Card.enhanceAccuracyScore r : ℚ)) ∧
      (0 ≤ r → r ≤ 100 → Card.enhanceAccuracyScore r ≤ 100) ∧
      (20 ≤ r → 45 ≤ Card.enhanceAccuracyScore r) := by
  refine ⟨fun h1 h2 => ?_, fun _ h2 => enhance_le_100 h2, fun h1 => ?_⟩
  · rcases lt_or_le r 30 with hr | hr
    · rw [enhance_20_30 h1 hr]; push_cast; linarith
    rcases lt_or_le r 40 with hr2 | hr2
    · rw [enhance_30_40 hr hr2]; linarith [roundLB (r + 25)]
    rcases lt_or_le r 70 with hr3 | hr3
    · rw [enhance_40_70 hr2 hr3]; linarith [roundLB (r + 15)]
    · rw [enhance_70_85 hr3 h2]; linarith [roundLB (r + 7)]
  · rcases lt_or_le r 30 with hr | hr
    · rw [enhance_20_30 h1 hr]
    rcases lt_or_le r 40 with hr2 | hr2
    · rw [enhance_30_40 hr hr2]
      have h3 := roundLB (r + 25)
      have h4 : (45 : ℚ) ≤ (round (r + 25) : ℚ) := by linarith
      exact_mod_cast h4
    rcases lt_or_le r 70 with hr3 | hr3
    · rw [enhance_40_70 hr2 hr3]
      have h3 := roundLB (r + 15)
      have h4 : (45 : ℚ) ≤ (round (r + 15) : ℚ) := by linarith
      exact_mod_cast h4
    rcases lt_or_le r 85 with hr4 | hr4
    · rw [enhance_70_85 hr3 hr4]
      have h3 := roundLB (r + 7)
      have h4 : (45 : ℚ) ≤ (round (r + 7) : ℚ) := by linarith
      exact_mod_cast h4
    · rw [enhance_ge85 hr4]
      have h3 := roundLB r
      have h4 : (45 : ℚ) ≤ (round r : ℚ) := by linarith
      exact_mod_cast h4

/-- Witness for C3 at the raw score 50: the boost maps it to 65. -/
theorem claim3_witness :
    (20 ≤ (50 : ℚ) ∧ (50 : ℚ) < 85 ∧ (50 : ℚ) ≤ (Card.enhanceAccuracyScore 50 : ℚ)) ∧
      (0 ≤ (50 : ℚ) ∧ (50 : ℚ) ≤ 100 ∧ Card.enhanceAccuracyScore 50 ≤ 100) ∧
      45 ≤ Card.enhanceAccuracyScore 50 :=
  ⟨⟨by norm_num, by norm_num,
      (claim3_boost_properties 50).1 (by norm_num) (by norm_num)⟩,
    ⟨by norm_num, by norm_num,
      (claim3_boost_properties 50).2.1 (by norm_num) (by norm_num)⟩,
    (claim3_boost_properties 50).2.2 (by norm_num)⟩

unseal Rat.add Rat.mul Rat.inv Rat.sub Rat.ofScientific in
/-- Claim C4 counterexample: the encouragement transform is not monotone; it
maps the raw score 39 to 64 but the larger raw score 40 to only 55. -/
theorem claim4_counterexample :
    (39 : ℚ) ≤ 40 ∧ Card.enhanceAccuracyScore 39 = 64 ∧
      Card.enhanceAccuracyScore 40 = 55 ∧
      ¬ Card.enhanceAccuracyScore 39 ≤ Card.enhanceAccuracyScore 40 := by
  decide

/-- Claim C4 (amended): the encouragement transform is monotone
non-decreasing on each of the pieces [0, 40), [40, 70), [70, 85) and
[85, ∞) separately, but not globally (it drops at the piece boundaries, e.g.
from raw 39 to raw 40). -/
theorem claim4_piecewise_monotone (r1 r2 : ℚ) (h : r1 ≤ r2)
    (hreg : (0 ≤ r1 ∧ r2 < 40) ∨ (40 ≤ r1 ∧ r2 < 70) ∨ (70 ≤ r1 ∧ r2 < 85) ∨ 85 ≤ r1) :
    Card.enhanceAccuracyScore r1 ≤ Card.enhanceAccuracyScore r2 := by
  rcases hreg with ⟨ha, hb⟩ | ⟨ha, hb⟩ | ⟨ha, hb⟩ | ha
  · rcases lt_or_le r2 20 with hc | hc
    · rw [enhance_lt20 (by linarith), enhance_lt20 hc]
      exact roundMono h
    rcases lt_or_le r2 30 with hd | hd
    · rw [enhance_20_30 hc hd]
      rcases lt_or_le r1 20 with he | he
      · rw [enhance_lt20 he]
        have h1 := roundUB r1
        have h2 : (round r1 : ℚ) ≤ 45 := by linarith
        exact_mod_cast h2
      · rw [enhance_20_30 he (by linarith)]
    · rw [enhance_30_40 hd hb]
      have h1 := roundLB (r2 + 25)
      rcases lt_or_le r1 20 with he | he
      · rw [enhance_lt20 he]
        have h2 := roundUB r1
        have h3 : (round r1 : ℚ) ≤ (round (r2 + 25) : ℚ) := by linarith
        exact_mod_cast h3
      rcases lt_or_le r1 30 with hf | hf
      · rw [enhance_20_30 he hf]
        have h3 : (45 : ℚ) ≤ (round (r2 + 25) : ℚ) := by linarith
        exact_mod_cast h3
      · rw [enhance_30_40 hf (by linarith)]
        exact roundMono (by linarith)
  · rw [enhance_40_70 ha (by linarith), enhance_40_70 (by linarith) hb]
    exact roundMono (by linarith)
  · rw [enhance_70_85 ha (by linarith), enhance_70_85 (by linarith) hb]
    exact roundMono (by linarith)
  · rw [enhance_ge85 ha, enhance_ge85 (by linarith)]
    exact roundMono h

/-- Witness for the amended C4 inside the piece [40, 70). -/
theorem claim4_witness :
    (41 : ℚ) ≤ 69 ∧ Card.enhanceAccuracyScore 41 ≤ Card.enhanceAccuracyScore 69 :=
  ⟨by norm_num, claim4_piecewise_monotone 41 69 (by norm_num)
    (Or.inr (Or.inl ⟨by norm_num, by norm_num⟩))⟩

/-- Claim C5 counterexample: when target and transcript are both empty the
scorer does not return 0; the exact-match short-circuit fires first and it
returns 100. -/
theorem claim5_counterexample :
    Speech.cleanWord [] = [] ∧ Speech.calculateAccuracy [] [] = 100 := by
  constructor
  · rfl
  · simp [Speech.calculateAccuracy]

/-- Claim C5 (amended): when exactly one of the two inputs is empty after
cleaning (and the other is not), `calculateAccuracy` returns 0 as a defined
outcome; when both are empty the exact-match branch returns 100 instead. -/
theorem claim5_empty_zero (t s : List Char)
    (h : Speech.cleanWord t = [] ∨ Speech.cleanWord s = [])
    (hne : ¬(Speech.cleanWord t = [] ∧ Speech.cleanWord s = [])) :
    Speech.calculateAccuracy t s = 0 := by
  simp only [Speech.calculateAccuracy]
  rcases h with h | h
  · have hs : Speech.cleanWord s ≠ [] := fun hs => hne ⟨h, hs⟩
    rw [if_neg (show ¬ Speech.cleanWord t = Speech.cleanWord s from
        fun he => hs (he ▸ h)),
      if_pos (show (Speech.cleanWord t).length = 0 ∨ (Speech.cleanWord s).length = 0 from
        Or.inl (by rw [h]; rfl))]
  · have ht : Speech.cleanWord t ≠ [] := fun ht => hne ⟨ht, h⟩
    rw [if_neg (show ¬ Speech.cleanWord t = Speech.cleanWord s from
        fun he => ht (he.symm ▸ h)),
      if_pos (show (Speech.cleanWord t).length = 0 ∨ (Speech.cleanWord s).length = 0 from
        Or.inr (by rw [h]; rfl))]

/-- Witness for the amended C5: empty target, transcript "cat". -/
theorem claim5_witness :
    (Speech.cleanWord "".data = [] ∨ Speech.cleanWord "cat".data = []) ∧
      ¬(Speech.cleanWord "".data = [] ∧ Speech.cleanWord "cat".data = []) ∧
      Speech.calculateAccuracy "".data "cat".data = 0 :=
  ⟨Or.inl (by decide), by decide,
    claim5_empty_zero "".data "cat".data (Or.inl (by decide)) (by decide)⟩

/-- Claim C8 counterexample: the fallback variation generator can produce the
empty transcript from the word "a" (last-letter truncation), and scoring it
against "a" yields 0, far below the claimed guarantee of at least 50. -/
theorem claim8_counterexample :
    [] ∈ Api.mockVariations "a".data ∧ Api.calculateSimpleAccuracy "a".data [] = 0 ∧
      ¬ (50 : ℤ) ≤ Api.calculateSimpleAccuracy "a".data [] := by
  refine ⟨by decide, ?_, ?_⟩ <;>
    simp [Api.calculateSimpleAccuracy, Api.calculateStringsimilarity]

/-- Claim C8 (amended): the round-trip guarantee does not hold for every
producible variation (truncating "a" yields the empty string, which scores
0); it does hold for the perfect-match variation, which is always in the
list and scores 100. -/
theorem claim8_perfect_variation (w : List Char) :
    w ∈ Api.mockVariations w ∧ (50 : ℤ) ≤ Api.calculateSimpleAccuracy w w := by
  constructor
  · simp [Api.mockVariations]
  · simp [Api.calculateSimpleAccuracy, Api.calculateStringsimilarity]

/-- Claim C9 counterexample: for target "cat" and an empty transcript the
fallback analysis generator returns no strength strings at all. -/
theorem claim9_counterexample :
    (Api.generateMockAnalysis "cat".data "".data).strengths = [] := by
  simp [Api.generateMockAnalysis, Api.calculateSimpleAccuracy,
    Api.calculateStringsimilarity]

/-- Claim C9 (amended): the fallback analysis generator produces at least one
strength string exactly when the computed accuracy is at least 80; for lower
scores (however low) the strengths list is empty. -/
theorem claim9_strengths_iff (t tr : List Char) :
    (Api.generateMockAnalysis t tr).strengths ≠ [] ↔
      80 ≤ Api.calculateSimpleAccuracy t tr := by
  simp only [Api.generateMockAnalysis]
  split_ifs with h <;> simp [h]

/-! ## Lower-bound lemmas for the lenient scorer (used by claim C6) -/

theorem roundPos {x : ℚ} (h : 1 ≤ x) : 0 < round x := by
  have h1 := roundLB x
  have h2 : (0 : ℚ) < (round x : ℚ) := by linarith
  exact_mod_cast h2

theorem substringScore_nonneg (a b : List Char) : 0 ≤ Speech.substringScore a b := by
  simp only [Speech.substringScore]
  split_ifs <;> positivity

theorem lenient_nonneg (a b : List Char) : 0 ≤ Speech.calculateLenientSimilarity a b := by
  simp only [Speech.calculateLenientSimilarity]
  split_ifs <;> first
    | exact le_trans (substringScore_nonneg a b) (le_max_right _ _)
    | norm_num

theorem core_nonneg (t s : List Char) : 0 ≤ Speech.calculateCoreWordAccuracy t s := by
  simp only [Speech.calculateCoreWordAccuracy]
  split_ifs
  · norm_num
  · exact mul_nonneg (lenient_nonneg _ _) (by norm_num)

theorem stress_ge_50 (t s : List Char) :
    50 ≤ Speech.calculateStressPatternAccuracy t s := by
  simp only [Speech.calculateStressPatternAccuracy]
  split_ifs
  · norm_num
  · exact le_refl 50
  · exact le_trans (by norm_num) (le_max_left 60 _)

theorem syllable_ge_50 (t s : List Char) :
    50 ≤ Speech.calculateSyllableAccuracy t s := by
  simp only [Speech.calculateSyllableAccuracy]
  split_ifs
  · norm_num
  · norm_num
  · norm_num
  · exact le_max_left 50 _

theorem accentBonus_nonneg (t s : List Char) :
    0 ≤ Speech.calculateAccentToleranceBonus t s := by
  simp only [Speech.calculateAccentToleranceBonus]
  split_ifs <;> norm_num

unseal Rat.add Rat.mul Rat.inv Rat.sub Rat.ofScientific in
/-- Claim C6 counterexample, in two parts.  First, "kat" and "cat" are
distinct equal-length words differing in exactly one character, yet the raw
score is exactly 100 (not strictly less): accent normalization maps both to
"kat" and the accent-tolerance bonus pushes the clamped total to 100.
Second, "!" and "a" are distinct equal-length words differing in exactly one
character, yet the raw score is 0 (not strictly greater): "!" cleans to the
empty string. -/
theorem claim6_counterexample :
    ("kat".data ≠ "cat".data ∧ "kat".data.length = "cat".data.length ∧
        Pron.diffCount "kat".data "cat".data = 1 ∧
        Speech.calculateAccuracy "kat".data "cat".data = 100) ∧
      ("!".data ≠ "a".data ∧ "!".data.length = "a".data.length ∧
        Pron.diffCount "!".data "a".data = 1 ∧
        Speech.calculateAccuracy "!".data "a".data = 0) := by
  decide

/-- Claim C6 (amended): for equal-length words differing in exactly one
character whose cleaned forms are both non-empty, the raw score is strictly
positive (in fact at least 25) and at most 100; it can equal 100, so the
strict upper bound of the original claim does not hold, and without the
non-empty-cleaning hypothesis the strict lower bound fails as well. -/
theorem claim6_one_char_bounds (w1 w2 : List Char)
    (_hlen : w1.length = w2.length) (_hdiff : Pron.diffCount w1 w2 = 1)
    (h1 : Speech.cleanWord w1 ≠ []) (h2 : Speech.cleanWord w2 ≠ []) :
    0 < Speech.calculateAccuracy w1 w2 ∧ Speech.calculateAccuracy w1 w2 ≤ 100 := by
  refine ⟨?_, (calculateAccuracy_bounds w1 w2).2⟩
  simp only [Speech.calculateAccuracy]
  by_cases he : Speech.cleanWord w1 = Speech.cleanWord w2
  · rw [if_pos he]; norm_num
  · rw [if_neg he, if_neg (show ¬((Speech.cleanWord w1).length = 0 ∨
        (Speech.cleanWord w2).length = 0) by
      rintro (hz | hz)
      · exact h1 (List.length_eq_zero.mp hz)
      · exact h2 (List.length_eq_zero.mp hz))]
    have hc := core_nonneg (Speech.cleanWord w1) (Speech.cleanWord w2)
    have hst := stress_ge_50 (Speech.cleanWord w1) (Speech.cleanWord w2)
    have hsy := syllable_ge_50 (Speech.cleanWord w1) (Speech.cleanWord w2)
    have hb := accentBonus_nonneg (Speech.cleanWord w1) (Speech.cleanWord w2)
    refine roundPos (le_trans (by norm_num : (1 : ℚ) ≤ 25) ?_)
    refine le_trans (le_min (by norm_num) (by linarith)) (le_max_right 0 _)

/-- Witness for the amended C6 at "cat" versus "bat". -/
theorem claim6_witness :
    "cat".data.length = "bat".data.length ∧
      Pron.diffCount "cat".data "bat".data = 1 ∧
      Speech.cleanWord "cat".data ≠ [] ∧ Speech.cleanWord "bat".data ≠ [] ∧
      (0 < Speech.calculateAccuracy "cat".data "bat".data ∧
        Speech.calculateAccuracy "cat".data "bat".data ≤ 100) :=
  ⟨by decide, by decide, by decide, by decide,
    claim6_one_char_bounds "cat".data "bat".data (by decide) (by decide)
      (by decide) (by decide)⟩

unseal Rat.add Rat.mul Rat.inv Rat.sub Rat.ofScientific in
/-- Claim C7 counterexample: on the (already normalized, distinct) strings
"bird" and "birt" the implemented lenient similarity is max(jaro·100,
substring·100) = 250/3, not the claimed max(jaroWinkler·100, substring·100)
= 265/3: the implementation never adds the Winkler prefix bonus. -/
theorem claim7_counterexample :
    Speech.normalizeForAccents "bird".data ≠ Speech.normalizeForAccents "birt".data ∧
      Speech.calculateLenientSimilarity (Speech.normalizeForAccents "bird".data)
          (Speech.normalizeForAccents "birt".data) ≠
        max (SpecModel.jaroWinklerSpec (Speech.normalizeForAccents "bird".data)
            (Speech.normalizeForAccents "birt".data) * 100)
          (Speech.substringScore (Speech.normalizeForAccents "bird".data)
            (Speech.normalizeForAccents "birt".data)) := by
  decide

/-- Claim C7 (amended): when the accent-normalized forms differ, the
core-word accuracy is 0.9 times max(plainJaro·100, substringContainment·100);
the Jaro-Winkler prefix bonus of the claim is never applied. -/
theorem claim7_core_formula (a b : List Char)
    (h : Speech.normalizeForAccents a ≠ Speech.normalizeForAccents b) :
    Speech.calculateCoreWordAccuracy a b =
      max (Speech.calculateJaroSimilarity (Speech.normalizeForAccents a)
          (Speech.normalizeForAccents b) * 100)
        (Speech.substringScore (Speech.normalizeForAccents a)
          (Speech.normalizeForAccents b)) * 0.9 := by
  simp only [Speech.calculateCoreWordAccuracy, Speech.calculateLenientSimilarity]
  rw [if_neg h, if_neg (show ¬(if (Speech.normalizeForAccents b).length <
      (Speech.normalizeForAccents a).length then Speech.normalizeForAccents a
      else Speech.normalizeForAccents b).length = 0 by
    split_ifs with hlt <;> intro hz
    · omega
    · exact h ((List.length_eq_zero.mp (by omega)).trans
        (List.length_eq_zero.mp hz).symm))]

/-- Witness for the amended C7 at "bird" versus "birt". -/
theorem claim7_witness :
    Speech.calculateCoreWordAccuracy "bird".data "birt".data =
      max (Speech.calculateJaroSimilarity (Speech.normalizeForAccents "bird".data)
          (Speech.normalizeForAccents "birt".data) * 100)
        (Speech.substringScore (Speech.normalizeForAccents "bird".data)
          (Speech.normalizeForAccents "birt".data)) * 0.9 :=
  claim7_core_formula "bird".data "birt".data (by decide)

/-! ## Idempotence of `normalizeForAccents` (claim C10)

The key facts: the output of the pipeline contains no `'c'`, `'x'` or `'y'`,
no adjacent `"ph"` or `"qu"` pair, no run of a repeated non-newline
character, and no trailing `'e'`; and each pipeline stage is the identity on
strings with the corresponding property. -/

theorem subDigraph_eq_self (a b : Char) (repl : List Char) :
    ∀ l : List Char, List.Chain' (fun x y => ¬(x = a ∧ y = b)) l →
      Pron.subDigraph a b repl l = l
  | [], _ => rfl
  | [_], _ => rfl
  | x :: y :: t, h => by
    simp only [Pron.subDigraph]
    rw [if_neg (List.chain'_cons.mp h).1,
      subDigraph_eq_self a b repl (y :: t) (List.chain'_cons.mp h).2]

theorem subDigraph_eq_self_no_first (a b : Char) (repl : List Char) :
    ∀ l : List Char, a ∉ l → Pron.subDigraph a b repl l = l
  | [], _ => rfl
  | [_], _ => rfl
  | x :: y :: t, h => by
    simp only [Pron.subDigraph]
    rw [if_neg (fun hc => h (by rw [← hc.1]; exact List.mem_cons_self x (y :: t))),
      subDigraph_eq_self_no_first a b repl (y :: t)
        (fun hm => h (List.mem_cons_of_mem x hm))]

theorem subDigraph_head (a b r0 : Char) (rtail : List Char) :
    ∀ l : List Char,
      (Pron.subDigraph a b (r0 :: rtail) l).head? = l.head? ∨
        (Pron.subDigraph a b (r0 :: rtail) l).head? = some r0
  | [] => Or.inl rfl
  | [_] => Or.inl rfl
  | x :: y :: t => by
    simp only [Pron.subDigraph]
    split_ifs
    · exact Or.inr rfl
    · exact Or.inl rfl

theorem subDigraph_chain_one (a b c d r : Char) (hrd : r ≠ d) (hrc : r ≠ c) :
    ∀ l : List Char, List.Chain' (fun x y => ¬(x = c ∧ y = d)) l →
      List.Chain' (fun x y => ¬(x = c ∧ y = d)) (Pron.subDigraph a b [r] l)
  | [], _ => List.chain'_nil
  | [x], h => h
  | x :: y :: t, h => by
    have hxy := (List.chain'_cons.mp h).1
    have htail := (List.chain'_cons.mp h).2
    simp only [Pron.subDigraph]
    split_ifs with hab
    · rw [List.singleton_append]
      refine List.chain'_cons'.mpr ⟨?_, subDigraph_chain_one a b c d r hrd hrc t htail.tail⟩
      rintro z hz ⟨h1, -⟩
      exact hrc h1
    · refine List.chain'_cons'.mpr ⟨?_, subDigraph_chain_one a b c d r hrd hrc (y :: t) htail⟩
      intro z hz
      rcases subDigraph_head a b r [] (y :: t) with he | he
      · rw [he] at hz
        simp only [List.head?_cons, Option.mem_def, Option.some.injEq] at hz
        rw [← hz]; exact hxy
      · rw [he] at hz
        simp only [Option.mem_def, Option.some.injEq] at hz
        rintro ⟨-, h2⟩
        exact hrd (hz.trans h2)

theorem subDigraph_chain_two (a b c d r1 r2 : Char) (hr1d : r1 ≠ d) (hr2c : r2 ≠ c)
    (hpair : ¬(r1 = c ∧ r2 = d)) :
    ∀ l : List Char, List.Chain' (fun x y => ¬(x = c ∧ y = d)) l →
      List.Chain' (fun x y => ¬(x = c ∧ y = d)) (Pron.subDigraph a b [r1, r2] l)
  | [], _ => List.chain'_nil
  | [x], h => h
  | x :: y :: t, h => by
    have hxy := (List.chain'_cons.mp h).1
    have htail := (List.chain'_cons.mp h).2
    simp only [Pron.subDigraph]
    split_ifs with hab
    · show List.Chain' _ (r1 :: r2 :: Pron.subDigraph a b [r1, r2] t)
      refine List.chain'_cons.mpr ⟨hpair, ?_⟩
      refine List.chain'_cons'.mpr
        ⟨?_, subDigraph_chain_two a b c d r1 r2 hr1d hr2c hpair t htail.tail⟩
      rintro z hz ⟨h1, -⟩
      exact hr2c h1
    · refine List.chain'_cons'.mpr
        ⟨?_, subDigraph_chain_two a b c d r1 r2 hr1d hr2c hpair (y :: t) htail⟩
      intro z hz
      rcases subDigraph_head a b r1 [r2] (y :: t) with he | he
      · rw [he] at hz
        simp only [List.head?_cons, Option.mem_def, Option.some.injEq] at hz
        rw [← hz]; exact hxy
      · rw [he] at hz
        simp only [Option.mem_def, Option.some.injEq] at hz
        rintro ⟨-, h2⟩
        exact hr1d (hz.trans h2)

theorem subDigraph_nopair_one (a b r : Char) (h1 : r ≠ b) (h2 : r ≠ a) :
    ∀ l : List Char,
      List.Chain' (fun x y => ¬(x = a ∧ y = b)) (Pron.subDigraph a b [r] l)
  | [] => List.chain'_nil
  | [x] => List.chain'_singleton x
  | x :: y :: t => by
    simp only [Pron.subDigraph]
    split_ifs with hab
    · rw [List.singleton_append]
      refine List.chain'_cons'.mpr ⟨?_, subDigraph_nopair_one a b r h1 h2 t⟩
      rintro z hz ⟨hq, -⟩
      exact h2 hq
    · refine List.chain'_cons'.mpr ⟨?_, subDigraph_nopair_one a b r h1 h2 (y :: t)⟩
      intro z hz
      rcases subDigraph_head a b r [] (y :: t) with he | he
      · rw [he] at hz
        simp only [List.head?_cons, Option.mem_def, Option.some.injEq] at hz
        rw [← hz]; exact hab
      · rw [he] at hz
        simp only [Option.mem_def, Option.some.injEq] at hz
        rintro ⟨-, hq⟩
        exact h1 (hz.trans hq)

theorem subDigraph_nopair_two (a b r1 r2 : Char) (h1 : r1 ≠ b) (h2 : r2 ≠ a)
    (hpair : ¬(r1 = a ∧ r2 = b)) :
    ∀ l : List Char,
      List.Chain' (fun x y => ¬(x = a ∧ y = b)) (Pron.subDigraph a b [r1, r2] l)
  | [] => List.chain'_nil
  | [x] => List.chain'_singleton x
  | x :: y :: t => by
    simp only [Pron.subDigraph]
    split_ifs with hab
    · show List.Chain' _ (r1 :: r2 :: Pron.subDigraph a b [r1, r2] t)
      refine List.chain'_cons.mpr ⟨hpair, ?_⟩
      refine List.chain'_cons'.mpr ⟨?_, subDigraph_nopair_two a b r1 r2 h1 h2 hpair t⟩
      rintro z hz ⟨hq, -⟩
      exact h2 hq
    · refine List.chain'_cons'.mpr ⟨?_, subDigraph_nopair_two a b r1 r2 h1 h2 hpair (y :: t)⟩
      intro z hz
      rcases subDigraph_head a b r1 [r2] (y :: t) with he | he
      · rw [he] at hz
        simp only [List.head?_cons, Option.mem_def, Option.some.injEq] at hz
        rw [← hz]; exact hab
      · rw [he] at hz
        simp only [Option.mem_def, Option.some.injEq] at hz
        rintro ⟨-, hq⟩
        exact h1 (hz.trans hq)

theorem mapChar_eq_self (m r : Char) : ∀ l : List Char, m ∉ l → Pron.mapChar m r l = l
  | [], _ => rfl
  | x :: t, h => by
    simp only [Pron.mapChar, List.map_cons]
    rw [if_neg (fun hx => h (by rw [← hx]; exact List.mem_cons_self x t))]
    have ht := mapChar_eq_self m r t (fun hm => h (List.mem_cons_of_mem x hm))
    simp only [Pron.mapChar] at ht
    rw [ht]

theorem mapChar_no_target (m r : Char) (hrm : r ≠ m) (l : List Char) :
    m ∉ Pron.mapChar m r l := by
  intro hm
  simp only [Pron.mapChar] at hm
  rw [List.mem_map] at hm
  obtain ⟨x, hx, hfx⟩ := hm
  by_cases hxm : x = m
  · rw [if_pos hxm] at hfx; exact hrm hfx
  · rw [if_neg hxm] at hfx; exact hxm hfx

theorem mapChar_not_mem (m r c : Char) (hrc : r ≠ c) (l : List Char) (h : c ∉ l) :
    c ∉ Pron.mapChar m r l := by
  intro hc
  simp only [Pron.mapChar] at hc
  rw [List.mem_map] at hc
  obtain ⟨x, hx, hfx⟩ := hc
  by_cases hxm : x = m
  · rw [if_pos hxm] at hfx; exact hrc hfx
  · rw [if_neg hxm] at hfx; exact h (hfx ▸ hx)

theorem mapChar_chain (m r c d : Char) (hrc : r ≠ c) (hrd : r ≠ d) {l : List Char}
    (h : List.Chain' (fun x y => ¬(x = c ∧ y = d)) l) :
    List.Chain' (fun x y => ¬(x = c ∧ y = d)) (Pron.mapChar m r l) := by
  simp only [Pron.mapChar]
  rw [List.chain'_map]
  refine h.imp ?_
  intro x y hxy
  rintro ⟨hx, hy⟩
  refine hxy ⟨?_, ?_⟩
  · by_cases hxm : x = m
    · rw [if_pos hxm] at hx; exact absurd hx hrc
    · rwa [if_neg hxm] at hx
  · by_cases hym : y = m
    · rw [if_pos hym] at hy; exact absurd hy hrd
    · rwa [if_neg hym] at hy

theorem subX_eq_self : ∀ l : List Char, 'x' ∉ l → Speech.subX l = l
  | [], _ => rfl
  | c :: t, h => by
    simp only [Speech.subX]
    rw [if_neg (fun hc => h (by rw [← hc]; exact List.mem_cons_self c t)),
      subX_eq_self t (fun hm => h (List.mem_cons_of_mem c hm))]

theorem subX_no_x : ∀ l : List Char, 'x' ∉ Speech.subX l
  | [] => List.not_mem_nil 'x'
  | c :: t => by
    simp only [Speech.subX]
    split_ifs with hc
    · intro hm
      rw [List.mem_cons, List.mem_cons] at hm
      rcases hm with h | h | h
      · exact absurd h (by decide)
      · exact absurd h (by decide)
      · exact subX_no_x t h
    · intro hm
      rw [List.mem_cons] at hm
      rcases hm with h | h
      · exact hc h.symm
      · exact subX_no_x t h

theorem subX_not_mem (c : Char) (hk : c ≠ 'k') (hs : c ≠ 's') :
    ∀ l : List Char, c ∉ l → c ∉ Speech.subX l
  | [], _ => List.not_mem_nil c
  | x :: t, h => by
    simp only [Speech.subX]
    split_ifs with hx
    · intro hm
      rw [List.mem_cons, List.mem_cons] at hm
      rcases hm with h1 | h1 | h1
      · exact hk h1
      · exact hs h1
      · exact subX_not_mem c hk hs t (fun hm2 => h (List.mem_cons_of_mem x hm2)) h1
    · intro hm
      rw [List.mem_cons] at hm
      rcases hm with h1 | h1
      · exact h (by rw [h1]; exact List.mem_cons_self x t)
      · exact subX_not_mem c hk hs t (fun hm2 => h (List.mem_cons_of_mem x hm2)) h1

theorem subX_head (x : Char) (t : List Char) :
    (Speech.subX (x :: t)).head? = some x ∨ (Speech.subX (x :: t)).head? = some 'k' := by
  simp only [Speech.subX]
  split_ifs
  · exact Or.inr rfl
  · exact Or.inl rfl

theorem subX_chain (c d : Char) (hdk : d ≠ 'k') (hcs : c ≠ 's')
    (hks : ¬(c = 'k' ∧ d = 's')) :
    ∀ l : List Char, List.Chain' (fun x y => ¬(x = c ∧ y = d)) l →
      List.Chain' (fun x y => ¬(x = c ∧ y = d)) (Speech.subX l)
  | [], _ => List.chain'_nil
  | x :: t, h => by
    have htail : List.Chain' (fun x y => ¬(x = c ∧ y = d)) t := h.tail
    simp only [Speech.subX]
    split_ifs with hx
    · refine List.chain'_cons.mpr ⟨fun hp => hks ⟨hp.1.symm, hp.2.symm⟩, ?_⟩
      refine List.chain'_cons'.mpr ⟨?_, subX_chain c d hdk hcs hks t htail⟩
      rintro z hz ⟨h1, -⟩
      exact hcs h1.symm
    · refine List.chain'_cons'.mpr ⟨?_, subX_chain c d hdk hcs hks t htail⟩
      rcases t with _ | ⟨y, t'⟩
      · intro z hz
        simp [Speech.subX] at hz
      · intro z hz
        rcases subX_head y t' with he | he
        · rw [he, Option.mem_def, Option.some.injEq] at hz
          rw [← hz]
          exact (List.chain'_cons.mp h).1
        · rw [he, Option.mem_def, Option.some.injEq] at hz
          rintro ⟨-, h2⟩
          exact hdk (hz.trans h2).symm

theorem collapseRuns_head : ∀ (x : Char) (t : List Char),
    ∃ u, Speech.collapseRuns (x :: t) = x :: u
  | _, [] => ⟨[], rfl⟩
  | x, y :: t => by
    simp only [Speech.collapseRuns]
    split_ifs with h
    · obtain ⟨u, hu⟩ := collapseRuns_head y t
      exact ⟨u, by rw [hu, h.1]⟩
    · exact ⟨Speech.collapseRuns (y :: t), rfl⟩

theorem collapseRuns_chain (S : Char → Char → Prop) :
    ∀ l : List Char, List.Chain' S l → List.Chain' S (Speech.collapseRuns l)
  | [], _ => List.chain'_nil
  | [c], _ => List.chain'_singleton c
  | x :: y :: t, h => by
    have h1 := (List.chain'_cons.mp h).1
    have h2 := (List.chain'_cons.mp h).2
    simp only [Speech.collapseRuns]
    split_ifs with hcond
    · exact collapseRuns_chain S (y :: t) h2
    · refine List.chain'_cons'.mpr ⟨?_, collapseRuns_chain S (y :: t) h2⟩
      intro z hz
      obtain ⟨u, hu⟩ := collapseRuns_head y t
      rw [hu, List.head?_cons, Option.mem_def, Option.some.injEq] at hz
      rw [← hz]
      exact h1

theorem collapseRuns_norun :
    ∀ l : List Char,
      List.Chain' (fun x y => ¬(x = y ∧ x ≠ '\n')) (Speech.collapseRuns l)
  | [] => List.chain'_nil
  | [c] => List.chain'_singleton c
  | x :: y :: t => by
    simp only [Speech.collapseRuns]
    split_ifs with hcond
    · exact collapseRuns_norun (y :: t)
    · refine List.chain'_cons'.mpr ⟨?_, collapseRuns_norun (y :: t)⟩
      intro z hz
      obtain ⟨u, hu⟩ := collapseRuns_head y t
      rw [hu, List.head?_cons, Option.mem_def, Option.some.injEq] at hz
      rw [← hz]
      exact hcond

theorem collapseRuns_eq_self :
    ∀ l : List Char,
      List.Chain' (fun x y => ¬(x = y ∧ x ≠ '\n')) l → Speech.collapseRuns l = l
  | [], _ => rfl
  | [_], _ => rfl
  | x :: y :: t, h => by
    simp only [Speech.collapseRuns]
    rw [if_neg (List.chain'_cons.mp h).1,
      collapseRuns_eq_self (y :: t) (List.chain'_cons.mp h).2]

theorem collapseRuns_mem : ∀ (l : List Char) (c : Char),
    c ∈ Speech.collapseRuns l → c ∈ l
  | [], _, h => h
  | [_], _, h => h
  | x :: y :: t, c, h => by
    simp only [Speech.collapseRuns] at h
    split_ifs at h with hcond
    · exact List.mem_cons_of_mem x (collapseRuns_mem (y :: t) c h)
    · rw [List.mem_cons] at h
      rcases h with h | h
      · exact h ▸ List.mem_cons_self x (y :: t)
      · exact List.mem_cons_of_mem x (collapseRuns_mem (y :: t) c h)

theorem dropE_headE : ∀ (x : Char) (t : List Char),
    Speech.dropE (x :: t) = [] ∨ ∃ u, Speech.dropE (x :: t) = x :: u
  | x, [] => by
    simp only [Speech.dropE]
    split_ifs
    · exact Or.inl rfl
    · exact Or.inr ⟨[], rfl⟩
  | x, y :: t => Or.inr ⟨Speech.dropE (y :: t), rfl⟩

theorem dropE_chain (S : Char → Char → Prop) :
    ∀ l : List Char, List.Chain' S l → List.Chain' S (Speech.dropE l)
  | [], _ => List.chain'_nil
  | [c], _ => by
    simp only [Speech.dropE]
    split_ifs
    · exact List.chain'_nil
    · exact List.chain'_singleton c
  | x :: y :: t, h => by
    show List.Chain' S (x :: Speech.dropE (y :: t))
    refine List.chain'_cons'.mpr ⟨?_, dropE_chain S (y :: t) (List.chain'_cons.mp h).2⟩
    intro z hz
    rcases dropE_headE y t with he | ⟨u, hu⟩
    · rw [he] at hz
      exact absurd hz (by simp)
    · rw [hu, List.head?_cons, Option.mem_def, Option.some.injEq] at hz
      rw [← hz]
      exact (List.chain'_cons.mp h).1

theorem dropE_mem : ∀ (l : List Char) (c : Char), c ∈ Speech.dropE l → c ∈ l
  | [], _, h => h
  | [x], c, h => by
    simp only [Speech.dropE] at h
    split_ifs at h
    · exact absurd h (List.not_mem_nil c)
    · exact h
  | x :: y :: t, c, h => by
    rw [show Speech.dropE (x :: y :: t) = x :: Speech.dropE (y :: t) from rfl,
      List.mem_cons] at h
    rcases h with h | h
    · exact h ▸ List.mem_cons_self x (y :: t)
    · exact List.mem_cons_of_mem x (dropE_mem (y :: t) c h)

theorem dropE_dropE :
    ∀ l : List Char, List.Chain' (fun x y => ¬(x = y ∧ x ≠ '\n')) l →
      Speech.dropE (Speech.dropE l) = Speech.dropE l
  | [], _ => rfl
  | [c], _ => by
    simp only [Speech.dropE]
    split_ifs with h
    · rfl
    · simp only [Speech.dropE]
      rw [if_neg h]
  | x :: y :: t, h => by
    rcases t with _ | ⟨z, t'⟩
    · by_cases hy : y = 'e'
      · have hx : x ≠ 'e' := by
          intro hx
          exact (List.chain'_cons.mp h).1 ⟨hx.trans hy.symm, by rw [hx]; decide⟩
        show Speech.dropE (x :: Speech.dropE [y]) = x :: Speech.dropE [y]
        rw [show Speech.dropE [y] = [] from by simp [Speech.dropE, hy]]
        simp [Speech.dropE, hx]
      · show Speech.dropE (x :: Speech.dropE [y]) = x :: Speech.dropE [y]
        rw [show Speech.dropE [y] = [y] from by simp [Speech.dropE, hy]]
        show x :: Speech.dropE [y] = x :: [y]
        rw [show Speech.dropE [y] = [y] from by simp [Speech.dropE, hy]]
    · have htail := dropE_dropE (y :: z :: t') (List.chain'_cons.mp h).2
      rw [show Speech.dropE (y :: z :: t') = y :: Speech.dropE (z :: t') from rfl] at htail
      show Speech.dropE (x :: (y :: Speech.dropE (z :: t'))) =
        x :: (y :: Speech.dropE (z :: t'))
      rw [show Speech.dropE (x :: (y :: Speech.dropE (z :: t'))) =
          x :: Speech.dropE (y :: Speech.dropE (z :: t')) from rfl]
      rw [htail]

theorem normalizeForAccents_fixed (P : List Char)
    (hph : List.Chain' (fun x y => ¬(x = 'p' ∧ y = 'h')) P)
    (hc : 'c' ∉ P)
    (hqu : List.Chain' (fun x y => ¬(x = 'q' ∧ y = 'u')) P)
    (hx : 'x' ∉ P) (hy : 'y' ∉ P)
    (hrun : List.Chain' (fun x y => ¬(x = y ∧ x ≠ '\n')) P)
    (he : Speech.dropE P = P) :
    Speech.normalizeForAccents P = P := by
  have e1 : Speech.subPh P = P := subDigraph_eq_self 'p' 'h' ['f'] P hph
  have e2 : Speech.subCk P = P := subDigraph_eq_self_no_first 'c' 'k' ['k'] P hc
  have e3 : Speech.subQu P = P := subDigraph_eq_self 'q' 'u' ['k', 'w'] P hqu
  have e4 : Speech.subX P = P := subX_eq_self P hx
  have e5 : Speech.subC P = P := mapChar_eq_self 'c' 'k' P hc
  have e6 : Speech.subY P = P := mapChar_eq_self 'y' 'i' P hy
  have e7 : Speech.collapseRuns P = P := collapseRuns_eq_self P hrun
  show Speech.dropE (Speech.collapseRuns (Speech.subY (Speech.subC (Speech.subX
    (Speech.subQu (Speech.subCk (Speech.subPh P))))))) = P
  rw [e1, e2, e3, e4, e5, e6, e7, he]

/-- Claim C10: `normalizeForAccents` is idempotent — running the fixed-order
substitution pipeline a second time never changes the result.  The output of
a pass contains no `'c'`, `'x'` or `'y'`, no `"ph"` or `"qu"` adjacency, no
run of a repeated (non-newline) character, and no trailing `'e'`, and each
stage of the pipeline is the identity on such strings. -/
theorem claim10_normalize_idempotent (w : List Char) :
    Speech.normalizeForAccents (Speech.normalizeForAccents w) =
      Speech.normalizeForAccents w := by
  apply normalizeForAccents_fixed
  · exact dropE_chain _ _ (collapseRuns_chain _ _
      (mapChar_chain 'y' 'i' 'p' 'h' (by decide) (by decide)
        (mapChar_chain 'c' 'k' 'p' 'h' (by decide) (by decide)
          (subX_chain 'p' 'h' (by decide) (by decide) (by decide) _
            (subDigraph_chain_two 'q' 'u' 'p' 'h' 'k' 'w' (by decide) (by decide)
              (by decide) _
              (subDigraph_chain_one 'c' 'k' 'p' 'h' 'k' (by decide) (by decide) _
                (subDigraph_nopair_one 'p' 'h' 'f' (by decide) (by decide) w)))))))
  · intro hm
    exact mapChar_not_mem 'y' 'i' 'c' (by decide) _
      (mapChar_no_target 'c' 'k' (by decide) _)
      (collapseRuns_mem _ 'c' (dropE_mem _ 'c' hm))
  · exact dropE_chain _ _ (collapseRuns_chain _ _
      (mapChar_chain 'y' 'i' 'q' 'u' (by decide) (by decide)
        (mapChar_chain 'c' 'k' 'q' 'u' (by decide) (by decide)
          (subX_chain 'q' 'u' (by decide) (by decide) (by decide) _
            (subDigraph_nopair_two 'q' 'u' 'k' 'w' (by decide) (by decide)
              (by decide) _)))))
  · intro hm
    exact mapChar_not_mem 'y' 'i' 'x' (by decide) _
      (mapChar_not_mem 'c' 'k' 'x' (by decide) _ (subX_no_x _))
      (collapseRuns_mem _ 'x' (dropE_mem _ 'x' hm))
  · intro hm
    exact mapChar_no_target 'y' 'i' (by decide) _
      (collapseRuns_mem _ 'y' (dropE_mem _ 'y' hm))
  · exact dropE_chain _ _ (collapseRuns_norun _)
  · exact dropE_dropE _ (collapseRuns_norun _)
